import Mathlib

/-!
Verification of the TamaleBot core against its specification.

The definitions below are a shallow embedding of the TypeScript source:

* `runAgentLoop` embeds `src/agent/agent-loop.ts` (`runAgentLoop`): the
  provider is modelled as a finite list of `LLMResponse`s (the mock-LLM
  discipline of the test-suite); exhausting the list models a provider
  call that throws, so the loop result is `Option AgentResponse` paired
  with the final conversation history (the TypeScript mutates the
  history array in place; here the final list is returned).
* `checkCommand`, `checkSSH` embed the policy engine
  (`src/security/policy-engine.ts`); the dangerous command patterns are
  compiled by hand into a small regular-expression AST `Re` covering
  exactly the constructs the default patterns use, matched with
  JavaScript `RegExp.test` semantics (case-insensitive, search at every
  start position).
* `vaultSet`/`vaultGet` embed `CredentialVault.set/get`
  (`src/security/vault.ts`); the AES-256-GCM cipher and the PBKDF2 key
  derivation are external `node:crypto` primitives, so they enter the
  model as parameters (`AEADScheme`, a `kdf` function) whose standard
  correctness properties appear as explicit hypotheses; the storage
  backend is modelled as an association list with put/get semantics and
  JSON (de)serialisation of the stored record is elided (the record is
  stored structurally).
* `executeTool` embeds the tool dispatch of `src/agent/tools.ts`; the
  eight concrete executors perform I/O and are abstracted as parameters,
  while the observable effects (audit appends, policy evaluations) are
  reified in `ExecOutcome`.
-/

namespace TamaleBot

/-- Role of a canonical message (`user` or `assistant`). -/
inductive Role
  | user
  | assistant
  deriving DecidableEq

/-- Tool input: a string-keyed map of JSON-compatible values; the values
are abstracted as strings. -/
abbrev ToolInput := List (String × String)

/-- One typed content block of a canonical message.  The `isError` field
of a tool-result block is `some true` or omitted (`none`), mirroring
`is_error: result.isError || undefined` in the agent loop. -/
inductive Block
  | text (t : String)
  | toolUse (id : String) (name : String) (input : ToolInput)
  | toolResult (toolUseId : String) (content : String) (isError : Option Bool)
  deriving DecidableEq

/-- Message content: either a plain string or an ordered block sequence. -/
inductive Content
  | str (s : String)
  | blocks (bs : List Block)
  deriving DecidableEq

/-- A canonical conversation message. -/
structure Message where
  role : Role
  content : Content
  deriving DecidableEq

/-- One tool call requested by the provider. -/
structure ToolCallRequest where
  id : String
  name : String
  input : ToolInput
  deriving DecidableEq

/-- One whole provider response (`LLMResponse` in `llm-client.ts`). -/
structure LLMResponse where
  text : String
  toolCalls : List ToolCallRequest
  inputTokens : Nat
  outputTokens : Nat
  deriving DecidableEq

/-- Result of one tool execution (`ToolResult` in `tools.ts`). -/
structure ToolResult where
  output : String
  isError : Bool
  deriving DecidableEq

/-- Result of one agent-loop turn (`AgentResponse` in `agent-loop.ts`). -/
structure AgentResponse where
  text : String
  toolCallCount : Nat
  totalInputTokens : Nat
  totalOutputTokens : Nat
  iterations : Nat
  deriving DecidableEq

/-- Default iteration bound of the agent loop. -/
def DEFAULT_MAX_ITERATIONS : Nat := 20

/-- Content blocks of the assistant message built when the response has
tool calls: a text block when the text is non-empty (JS truthiness of
`response.text`), then one tool-use block per tool call, in order. -/
def assistantContentOf (r : LLMResponse) : List Block :=
  (if r.text ≠ "" then [Block.text r.text] else []) ++
    r.toolCalls.map (fun tc => Block.toolUse tc.id tc.name tc.input)

/-- Tool-result blocks collected by executing each tool call in order. -/
def toolResultsOf (exec : String → ToolInput → ToolResult) (r : LLMResponse) :
    List Block :=
  r.toolCalls.map (fun tc =>
    let res := exec tc.name tc.input
    Block.toolResult tc.id res.output (if res.isError then some true else none))

/-- Body of the agent loop.  `fuel` is the number of remaining iterations
(`maxIter - i`), `responses` the remaining provider responses; the
accumulators mirror `totalInputTokens`, `totalOutputTokens`,
`toolCallCount`, `iterations` and `finalText`.  Returns the loop result
(`none` models a provider call that throws because the responses are
exhausted) and the list of messages appended to the history from this
point on. -/
def loopGo (exec : String → ToolInput → ToolResult) :
    Nat → List LLMResponse → Nat → Nat → Nat → Nat → String →
    Option AgentResponse × List Message
  | 0, _, inTok, outTok, tcc, iters, finalText =>
      (some ⟨finalText, tcc, inTok, outTok, iters⟩, [])
  | _ + 1, [], _, _, _, _, _ => (none, [])
  | fuel + 1, r :: rest, inTok, outTok, tcc, iters, finalText =>
      let inTok' := inTok + r.inputTokens
      let outTok' := outTok + r.outputTokens
      let finalText' := if r.text ≠ "" then r.text else finalText
      if r.toolCalls = [] then
        (some ⟨finalText', tcc, inTok', outTok', iters + 1⟩,
          [⟨Role.assistant, Content.str r.text⟩])
      else
        let next := loopGo exec fuel rest inTok' outTok'
          (tcc + r.toolCalls.length) (iters + 1) finalText'
        (next.1,
          ⟨Role.assistant, Content.blocks (assistantContentOf r)⟩ ::
          ⟨Role.user, Content.blocks (toolResultsOf exec r)⟩ :: next.2)

/-- The agent loop (`runAgentLoop` in `agent-loop.ts`).  Appends the user
message, then iterates up to `maxIterations` times.  Returns the loop
result (`none` when a provider call fails) together with the final
conversation history. -/
def runAgentLoop (exec : String → ToolInput → ToolResult) (userMessage : String)
    (conversationHistory : List Message) (maxIterations : Nat)
    (responses : List LLMResponse) : Option AgentResponse × List Message :=
  let run := loopGo exec maxIterations responses 0 0 0 0 ""
  (run.1, conversationHistory ++ ⟨Role.user, Content.str userMessage⟩ :: run.2)

/-- Call identifiers of the tool-use blocks of a message. -/
def toolUseIds (m : Message) : List String :=
  match m.content with
  | .str _ => []
  | .blocks bs => bs.filterMap (fun b =>
      match b with
      | .toolUse id _ _ => some id
      | _ => none)

/-- Call identifiers of the tool-result blocks of a message. -/
def toolResultIds (m : Message) : List String :=
  match m.content with
  | .str _ => []
  | .blocks bs => bs.filterMap (fun b =>
      match b with
      | .toolResult id _ _ => some id
      | _ => none)

/-- The tool-use identifiers of the assistant message built from a
response are exactly the identifiers of its tool calls, in order. -/
theorem toolUseIds_assistantMsg (r : LLMResponse) :
    toolUseIds ⟨Role.assistant, Content.blocks (assistantContentOf r)⟩ =
      r.toolCalls.map (fun tc => tc.id) := by
  simp only [toolUseIds, assistantContentOf, List.filterMap_append]
  have h1 : (if r.text ≠ "" then [Block.text r.text] else []).filterMap
      (fun b => match b with | .toolUse id _ _ => some id | _ => none) = [] := by
    split <;> simp
  rw [h1, List.nil_append]
  induction r.toolCalls with
  | nil => rfl
  | cons tc rest ih => simp [ih]

/-- An assistant message built from a response carries no tool-result
blocks. -/
theorem toolResultIds_assistantMsg (r : LLMResponse) :
    toolResultIds ⟨Role.assistant, Content.blocks (assistantContentOf r)⟩ = [] := by
  simp only [toolResultIds, assistantContentOf, List.filterMap_append]
  have h1 : (if r.text ≠ "" then [Block.text r.text] else []).filterMap
      (fun b => match b with | .toolResult id _ _ => some id | _ => none) = [] := by
    split <;> simp
  rw [h1, List.nil_append]
  induction r.toolCalls with
  | nil => rfl
  | cons tc rest ih => simp [ih]

/-- The tool-result identifiers of the synthetic user message are exactly
the identifiers of the response's tool calls, in order. -/
theorem toolResultIds_userMsg (exec : String → ToolInput → ToolResult)
    (r : LLMResponse) :
    toolResultIds ⟨Role.user, Content.blocks (toolResultsOf exec r)⟩ =
      r.toolCalls.map (fun tc => tc.id) := by
  simp only [toolResultIds, toolResultsOf]
  induction r.toolCalls with
  | nil => rfl
  | cons tc rest ih => simp [ih]

/-- The synthetic user message carries no tool-use blocks. -/
theorem toolUseIds_userMsg (exec : String → ToolInput → ToolResult)
    (r : LLMResponse) :
    toolUseIds ⟨Role.user, Content.blocks (toolResultsOf exec r)⟩ = [] := by
  simp only [toolUseIds, toolResultsOf]
  induction r.toolCalls with
  | nil => rfl
  | cons tc rest ih => simp [ih]

/-- Shape of the message list appended by the loop body: zero or more
(assistant-with-tool-uses, user-with-tool-results) pairs, optionally
closed by a final text-only assistant message. -/
inductive TurnShape (exec : String → ToolInput → ToolResult) : List Message → Prop
  | nil : TurnShape exec []
  | final (t : String) : TurnShape exec [⟨Role.assistant, Content.str t⟩]
  | step (r : LLMResponse) (rest : List Message) (hne : r.toolCalls ≠ [])
      (h : TurnShape exec rest) :
      TurnShape exec (⟨Role.assistant, Content.blocks (assistantContentOf r)⟩ ::
        ⟨Role.user, Content.blocks (toolResultsOf exec r)⟩ :: rest)

/-- Shape of the message list appended when the run ends in a provider
failure: complete tool-turn pairs only, with no trailing assistant
message. -/
inductive ToolTurns (exec : String → ToolInput → ToolResult) : List Message → Prop
  | nil : ToolTurns exec []
  | step (r : LLMResponse) (rest : List Message) (hne : r.toolCalls ≠ [])
      (h : ToolTurns exec rest) :
      ToolTurns exec (⟨Role.assistant, Content.blocks (assistantContentOf r)⟩ ::
        ⟨Role.user, Content.blocks (toolResultsOf exec r)⟩ :: rest)

/-- The loop body always appends a `TurnShape`-shaped message list. -/
theorem loopGo_shape (exec : String → ToolInput → ToolResult) :
    ∀ fuel rs a b c d t, TurnShape exec (loopGo exec fuel rs a b c d t).2 := by
  intro fuel
  induction fuel with
  | zero => intro rs a b c d t; exact TurnShape.nil
  | succ n ih =>
    intro rs a b c d t
    cases rs with
    | nil => exact TurnShape.nil
    | cons r rest =>
      by_cases hr : r.toolCalls = []
      · simp only [loopGo, hr, if_pos]
        exact TurnShape.final r.text
      · simp only [loopGo, hr, if_neg, not_false_iff]
        exact TurnShape.step r _ hr (ih rest _ _ _ _ _)

/-- On a provider failure, the loop body has appended complete tool-turn
pairs only. -/
theorem loopGo_shape_fail (exec : String → ToolInput → ToolResult) :
    ∀ fuel rs a b c d t, (loopGo exec fuel rs a b c d t).1 = none →
      ToolTurns exec (loopGo exec fuel rs a b c d t).2 := by
  intro fuel
  induction fuel with
  | zero => intro rs a b c d t h; exact absurd h (by simp [loopGo])
  | succ n ih =>
    intro rs a b c d t h
    cases rs with
    | nil => exact ToolTurns.nil
    | cons r rest =>
      by_cases hr : r.toolCalls = []
      · exact absurd h (by simp [loopGo, hr])
      · simp only [loopGo, hr, if_neg, not_false_iff] at h ⊢
        exact ToolTurns.step r _ hr (ih rest _ _ _ _ _ h)

/-- In a `TurnShape` list, every assistant message with tool-use blocks is
immediately followed by a user message whose tool-result identifiers are
exactly its tool-use identifiers. -/
theorem TurnShape.pairA {exec : String → ToolInput → ToolResult}
    {l : List Message} (h : TurnShape exec l) :
    ∀ i m, l[i]? = some m → m.role = Role.assistant → toolUseIds m ≠ [] →
      ∃ m', l[i + 1]? = some m' ∧ m'.role = Role.user ∧
        toolResultIds m' = toolUseIds m := by
  induction h with
  | nil => intro i m hm; simp at hm
  | final t =>
    intro i m hm hrole hids
    match i with
    | 0 =>
      simp only [List.getElem?_cons_zero, Option.some.injEq] at hm
      subst hm
      exact absurd rfl hids
    | j + 1 => simp at hm
  | step r rest hne hrest ih =>
    intro i m hm hrole hids
    match i with
    | 0 =>
      simp only [List.getElem?_cons_zero, Option.some.injEq] at hm
      subst hm
      refine ⟨⟨Role.user, Content.blocks (toolResultsOf exec r)⟩, by simp, rfl, ?_⟩
      rw [toolResultIds_userMsg, toolUseIds_assistantMsg]
    | 1 =>
      simp only [List.getElem?_cons_succ, List.getElem?_cons_zero,
        Option.some.injEq] at hm
      subst hm
      exact absurd hrole (by simp)
    | j + 2 =>
      simp only [List.getElem?_cons_succ] at hm
      obtain ⟨m', h1, h2, h3⟩ := ih j m hm hrole hids
      exact ⟨m', by simpa using h1, h2, h3⟩

/-- In a `TurnShape` list, every message with tool-result blocks is a user
message immediately preceded by an assistant message whose tool-use
identifiers are exactly its tool-result identifiers. -/
theorem TurnShape.pairB {exec : String → ToolInput → ToolResult}
    {l : List Message} (h : TurnShape exec l) :
    ∀ i m', l[i]? = some m' → toolResultIds m' ≠ [] →
      m'.role = Role.user ∧ ∃ i₀ m, i = i₀ + 1 ∧ l[i₀]? = some m ∧
        m.role = Role.assistant ∧ toolUseIds m = toolResultIds m' := by
  induction h with
  | nil => intro i m' hm; simp at hm
  | final t =>
    intro i m' hm hids
    match i with
    | 0 =>
      simp only [List.getElem?_cons_zero, Option.some.injEq] at hm
      subst hm
      exact absurd rfl hids
    | j + 1 => simp at hm
  | step r rest hne hrest ih =>
    intro i m' hm hids
    match i with
    | 0 =>
      simp only [List.getElem?_cons_zero, Option.some.injEq] at hm
      subst hm
      exact absurd (toolResultIds_assistantMsg r) hids
    | 1 =>
      simp only [List.getElem?_cons_succ, List.getElem?_cons_zero,
        Option.some.injEq] at hm
      subst hm
      refine ⟨rfl, 0, ⟨Role.assistant, Content.blocks (assistantContentOf r)⟩,
        rfl, by simp, rfl, ?_⟩
      rw [toolResultIds_userMsg, toolUseIds_assistantMsg]
    | j + 2 =>
      simp only [List.getElem?_cons_succ] at hm
      obtain ⟨hrole, i₀, m, hi, hm₀, hra, hids'⟩ := ih j m' hm hids
      exact ⟨hrole, i₀ + 2, m, by omega, by simpa using hm₀, hra, hids'⟩

/-- C1.  In every run of the agent loop (any tool executor, any provider
response sequence, any initial history), the appended part of the history
satisfies the tool-use/tool-result pairing invariant: every appended
assistant message with tool-use blocks is immediately followed by a user
message whose tool-result call identifiers are exactly the assistant
message's tool-use identifiers, and conversely every appended message
carrying tool-result blocks is a user message immediately preceded by an
assistant message with matching tool-use identifiers. -/
theorem agent_loop_tool_pairing
    (exec : String → ToolInput → ToolResult) (u : String)
    (h₀ : List Message) (n : Nat) (rs : List LLMResponse) :
    ∃ app, (runAgentLoop exec u h₀ n rs).2 = h₀ ++ app ∧
      (∀ i m, app[i]? = some m → m.role = Role.assistant → toolUseIds m ≠ [] →
        ∃ m', app[i + 1]? = some m' ∧ m'.role = Role.user ∧
          toolResultIds m' = toolUseIds m) ∧
      (∀ i m', app[i]? = some m' → toolResultIds m' ≠ [] →
        m'.role = Role.user ∧ ∃ i₀ m, i = i₀ + 1 ∧ app[i₀]? = some m ∧
          m.role = Role.assistant ∧ toolUseIds m = toolResultIds m') := by
  refine ⟨⟨Role.user, Content.str u⟩ :: (loopGo exec n rs 0 0 0 0 "").2, rfl, ?_, ?_⟩
  · intro i m hm hrole hids
    have hsh := loopGo_shape exec n rs 0 0 0 0 ""
    match i with
    | 0 =>
      simp only [List.getElem?_cons_zero, Option.some.injEq] at hm
      subst hm
      exact absurd hrole (by simp)
    | j + 1 =>
      simp only [List.getElem?_cons_succ] at hm
      obtain ⟨m', h1, h2, h3⟩ := hsh.pairA j m hm hrole hids
      exact ⟨m', by simpa using h1, h2, h3⟩
  · intro i m' hm hids
    have hsh := loopGo_shape exec n rs 0 0 0 0 ""
    match i with
    | 0 =>
      simp only [List.getElem?_cons_zero, Option.some.injEq] at hm
      subst hm
      exact absurd rfl hids
    | j + 1 =>
      simp only [List.getElem?_cons_succ] at hm
      obtain ⟨hrole, i₀, m, hi, hm₀, hra, hids'⟩ := hsh.pairB j m' hm hids
      exact ⟨hrole, i₀ + 1, m, by omega, by simpa using hm₀, hra, hids'⟩

/-- Number of messages of a given role in a list. -/
def countRole (ro : Role) (l : List Message) : Nat :=
  l.countP (fun m => m.role == ro)

/-- Whether a message is an assistant message containing tool-use blocks. -/
def isToolAssistant (m : Message) : Bool :=
  m.role == Role.assistant && !(toolUseIds m).isEmpty

/-- Number of assistant messages containing tool-use blocks. -/
def countToolAssistant (l : List Message) : Nat :=
  l.countP isToolAssistant

/-- Counting invariant of the loop body: on success, the appended
assistant messages account exactly for the iterations performed, and the
appended user messages are exactly the tool-result messages, one per
appended assistant message that carried tool-use blocks. -/
theorem loopGo_counts (exec : String → ToolInput → ToolResult) :
    ∀ fuel rs a b c d t r₀,
      (loopGo exec fuel rs a b c d t).1 = some r₀ →
      countRole Role.assistant (loopGo exec fuel rs a b c d t).2 + d =
        r₀.iterations ∧
      countRole Role.user (loopGo exec fuel rs a b c d t).2 =
        countToolAssistant (loopGo exec fuel rs a b c d t).2 := by
  intro fuel
  induction fuel with
  | zero =>
    intro rs a b c d t r₀ h
    simp only [loopGo, Option.some.injEq] at h
    subst h
    simp [loopGo, countRole, countToolAssistant]
  | succ n ih =>
    intro rs a b c d t r₀ h
    cases rs with
    | nil => simp [loopGo] at h
    | cons r rest =>
      by_cases hr : r.toolCalls = []
      · simp only [loopGo, hr, if_pos, Option.some.injEq] at h ⊢
        subst h
        refine ⟨?_, ?_⟩
        · simp only [countRole, List.countP_cons]
          simp
          omega
        · simp [countRole, countToolAssistant, List.countP_cons, isToolAssistant,
            toolUseIds]
      · simp only [loopGo, hr, if_neg, not_false_iff] at h ⊢
        obtain ⟨h1, h2⟩ := ih rest (a + r.inputTokens) (b + r.outputTokens)
          (c + r.toolCalls.length) (d + 1)
          (if r.text ≠ "" then r.text else t) r₀ h
        constructor
        · rw [← h1]
          simp only [countRole, List.countP_cons]
          simp
          omega
        · have hta : isToolAssistant
              ⟨Role.assistant, Content.blocks (assistantContentOf r)⟩ = true := by
            simp [isToolAssistant, toolUseIds_assistantMsg, hr]
          have htu : isToolAssistant
              ⟨Role.user, Content.blocks (toolResultsOf exec r)⟩ = false := by
            simp [isToolAssistant]
          simp only [countRole, countToolAssistant, List.countP_cons] at h2 ⊢
          simp [hta, htu]
          simpa [countRole, countToolAssistant] using h2

/-- C2.  When the agent loop completes without a provider exception, the
appended part of the history contains exactly `1 +` (number of appended
assistant messages that carried tool-use blocks) user messages, and the
number of appended assistant messages equals the returned iteration
count. -/
theorem agent_loop_message_counts
    (exec : String → ToolInput → ToolResult) (u : String) (h₀ : List Message)
    (n : Nat) (rs : List LLMResponse) (r : AgentResponse)
    (h : (runAgentLoop exec u h₀ n rs).1 = some r) :
    ∃ app, (runAgentLoop exec u h₀ n rs).2 = h₀ ++ app ∧
      countRole Role.user app = 1 + countToolAssistant app ∧
      countRole Role.assistant app = r.iterations := by
  refine ⟨⟨Role.user, Content.str u⟩ :: (loopGo exec n rs 0 0 0 0 "").2, rfl, ?_, ?_⟩
  · obtain ⟨h1, h2⟩ := loopGo_counts exec n rs 0 0 0 0 "" r h
    have e1 : countRole Role.user
        (⟨Role.user, Content.str u⟩ :: (loopGo exec n rs 0 0 0 0 "").2) =
        countRole Role.user (loopGo exec n rs 0 0 0 0 "").2 + 1 := by
      simp [countRole, List.countP_cons]
    have e2 : countToolAssistant
        (⟨Role.user, Content.str u⟩ :: (loopGo exec n rs 0 0 0 0 "").2) =
        countToolAssistant (loopGo exec n rs 0 0 0 0 "").2 := by
      simp [countToolAssistant, List.countP_cons, isToolAssistant]
    rw [e1, e2]
    omega
  · obtain ⟨h1, h2⟩ := loopGo_counts exec n rs 0 0 0 0 "" r h
    have e3 : countRole Role.assistant
        (⟨Role.user, Content.str u⟩ :: (loopGo exec n rs 0 0 0 0 "").2) =
        countRole Role.assistant (loopGo exec n rs 0 0 0 0 "").2 := by
      simp [countRole, List.countP_cons]
    rw [e3]
    omega

/-- A trivial tool executor used to instantiate universally quantified
theorems at concrete inputs. -/
def exec0 : String → ToolInput → ToolResult := fun _ _ => ⟨"ok", false⟩

/-- A provider response carrying only text (the safe-turn scenario). -/
def respText : LLMResponse :=
  ⟨"Hello! How can I help?", [], 100, 20⟩

/-- A provider response requesting one shell tool call. -/
def respTool : LLMResponse :=
  ⟨"Let me check that for you.",
    [⟨"tool_1", "shell", [("command", "echo hello")]⟩], 150, 50⟩

/-- Witness for C1: the pairing invariant at a concrete two-response run
(one tool turn, then a final text response). -/
theorem agent_loop_tool_pairing_witness :
    ∃ app, (runAgentLoop exec0 "Run echo hello" [] 20 [respTool, respText]).2 =
        [] ++ app ∧
      (∀ i m, app[i]? = some m → m.role = Role.assistant → toolUseIds m ≠ [] →
        ∃ m', app[i + 1]? = some m' ∧ m'.role = Role.user ∧
          toolResultIds m' = toolUseIds m) ∧
      (∀ i m', app[i]? = some m' → toolResultIds m' ≠ [] →
        m'.role = Role.user ∧ ∃ i₀ m, i = i₀ + 1 ∧ app[i₀]? = some m ∧
          m.role = Role.assistant ∧ toolUseIds m = toolResultIds m') :=
  agent_loop_tool_pairing exec0 "Run echo hello" [] 20 [respTool, respText]

/-- Witness for C2: the message-count invariant at the concrete
tool-roundtrip run (`iterations = 2`). -/
theorem agent_loop_message_counts_witness :
    ∃ app, (runAgentLoop exec0 "Run echo hello" [] 20 [respTool, respText]).2 =
        [] ++ app ∧
      countRole Role.user app = 1 + countToolAssistant app ∧
      countRole Role.assistant app = 2 :=
  agent_loop_message_counts exec0 "Run echo hello" [] 20 [respTool, respText]
    ⟨"Hello! How can I help?", 1, 250, 70, 2⟩ (by decide)

/-- Final text of the loop: the most recent non-empty response text,
starting from `init` (the loop's `finalText` accumulator). -/
def lastTextOf (init : String) (rs : List LLMResponse) : String :=
  rs.foldl (fun acc x => if x.text ≠ "" then x.text else acc) init

/-- Total number of tool calls across a response list. -/
def totalToolCalls (rs : List LLMResponse) : Nat :=
  (rs.map (fun x => x.toolCalls.length)).sum

/-- The loop body performs at most `fuel` further iterations. -/
theorem loopGo_iters_le (exec : String → ToolInput → ToolResult) :
    ∀ fuel rs a b c d t r₀,
      (loopGo exec fuel rs a b c d t).1 = some r₀ → r₀.iterations ≤ d + fuel := by
  intro fuel
  induction fuel with
  | zero =>
    intro rs a b c d t r₀ h
    simp only [loopGo, Option.some.injEq] at h
    subst h
    simp
  | succ n ih =>
    intro rs a b c d t r₀ h
    cases rs with
    | nil => simp [loopGo] at h
    | cons r rest =>
      by_cases hr : r.toolCalls = []
      · simp only [loopGo, hr, if_pos, Option.some.injEq] at h
        subst h
        simp
      · simp only [loopGo, hr, if_neg, not_false_iff] at h
        have := ih rest (a + r.inputTokens) (b + r.outputTokens)
          (c + r.toolCalls.length) (d + 1)
          (if r.text ≠ "" then r.text else t) r₀ h
        omega

/-- When every remaining response carries at least one tool call and
enough responses are available, the loop body runs for exactly `fuel`
further iterations, counting every tool call and keeping the most recent
non-empty text. -/
theorem loopGo_all_tools (exec : String → ToolInput → ToolResult) :
    ∀ fuel rs a b c d t,
      (∀ x ∈ rs, x.toolCalls ≠ []) → fuel ≤ rs.length →
      ∃ r₀, (loopGo exec fuel rs a b c d t).1 = some r₀ ∧
        r₀.iterations = d + fuel ∧
        r₀.toolCallCount = c + totalToolCalls (rs.take fuel) ∧
        r₀.text = lastTextOf t (rs.take fuel) := by
  intro fuel
  induction fuel with
  | zero =>
    intro rs a b c d t _ _
    exact ⟨⟨t, c, a, b, d⟩, rfl, by simp, by simp [totalToolCalls],
      by simp [lastTextOf]⟩
  | succ n ih =>
    intro rs a b c d t hall hlen
    cases rs with
    | nil => simp at hlen
    | cons r rest =>
      have hr : r.toolCalls ≠ [] := hall r (by simp)
      obtain ⟨r₀, h1, h2, h3, h4⟩ := ih rest (a + r.inputTokens)
        (b + r.outputTokens) (c + r.toolCalls.length) (d + 1)
        (if r.text ≠ "" then r.text else t)
        (fun x hx => hall x (by simp [hx])) (by simpa using hlen)
      refine ⟨r₀, ?_, by omega, ?_, ?_⟩
      · simp only [loopGo, hr, if_neg, not_false_iff]
        exact h1
      · rw [h3]
        simp [totalToolCalls, List.take_cons]
        omega
      · rw [h4]
        simp [lastTextOf, List.take_cons]

/-- C3.  The default iteration bound is 20; the loop never reports more
than `maxIterations` iterations; and when the provider returns at least
one tool call on every response, the loop terminates at exactly
`maxIterations` iterations, counting every tool call of the consumed
responses and returning the most recent non-empty response text. -/
theorem agent_loop_iteration_cap :
    DEFAULT_MAX_ITERATIONS = 20 ∧
    (∀ (exec : String → ToolInput → ToolResult) (u : String)
      (h₀ : List Message) (n : Nat) (rs : List LLMResponse) (r : AgentResponse),
      (runAgentLoop exec u h₀ n rs).1 = some r → r.iterations ≤ n) ∧
    (∀ (exec : String → ToolInput → ToolResult) (u : String)
      (h₀ : List Message) (n : Nat) (rs : List LLMResponse),
      (∀ x ∈ rs, x.toolCalls ≠ []) → n ≤ rs.length →
      ∃ r, (runAgentLoop exec u h₀ n rs).1 = some r ∧ r.iterations = n ∧
        r.toolCallCount = totalToolCalls (rs.take n) ∧
        r.text = lastTextOf "" (rs.take n)) := by
  refine ⟨rfl, ?_, ?_⟩
  · intro exec u h₀ n rs r h
    have := loopGo_iters_le exec n rs 0 0 0 0 "" r h
    omega
  · intro exec u h₀ n rs hall hlen
    obtain ⟨r₀, h1, h2, h3, h4⟩ := loopGo_all_tools exec n rs 0 0 0 0 "" hall hlen
    exact ⟨r₀, h1, by omega, by simpa using h3, h4⟩

/-- Three provider responses, each requesting exactly one tool call. -/
def rsAllTools : List LLMResponse :=
  [⟨"step one", [⟨"call_1", "shell", [("command", "ls")]⟩], 10, 1⟩,
   ⟨"", [⟨"call_2", "shell", [("command", "pwd")]⟩], 10, 1⟩,
   ⟨"step three", [⟨"call_3", "shell", [("command", "date")]⟩], 10, 1⟩]

/-- Witness for C3: with `maxIterations = 3` and one tool call per
response, the loop reports `iterations = 3`, `toolCallCount = 3`, and the
most recent non-empty text. -/
theorem agent_loop_iteration_cap_witness :
    ∃ r, (runAgentLoop exec0 "go" [] 3 rsAllTools).1 = some r ∧
      r.iterations = 3 ∧ r.toolCallCount = 3 ∧ r.text = "step three" := by
  obtain ⟨r, h1, h2, h3, h4⟩ :=
    agent_loop_iteration_cap.2.2 exec0 "go" [] 3 rsAllTools
      (by decide) (by decide)
  exact ⟨r, h1, h2, h3.trans (by decide), h4.trans (by decide)⟩

/-- C4 counterexample.  With no provider response available (the provider
call throws immediately), the error propagates (`none`), yet the final
history is not the initial history: the user message pushed before the
provider call remains appended. -/
theorem agent_loop_failure_mutates_history :
    (runAgentLoop exec0 "hi" [] 20 []).1 = none ∧
    (runAgentLoop exec0 "hi" [] 20 []).2 ≠ ([] : List Message) := by
  constructor
  · rfl
  · intro h
    simp [runAgentLoop] at h

/-- C4 (amended).  When a provider call made from within the agent loop
fails, the error propagates from the loop (result `none`) and the final
history is the initial history plus the initial user message plus the
complete assistant/tool-result pairs of the iterations finished before
the failure — i.e. the history is mutated by exactly the messages
appended before the failing provider call. -/
theorem agent_loop_provider_failure
    (exec : String → ToolInput → ToolResult) (u : String) (h₀ : List Message)
    (n : Nat) (rs : List LLMResponse)
    (h : (runAgentLoop exec u h₀ n rs).1 = none) :
    ∃ app, (runAgentLoop exec u h₀ n rs).2 =
        h₀ ++ ⟨Role.user, Content.str u⟩ :: app ∧ ToolTurns exec app := by
  exact ⟨(loopGo exec n rs 0 0 0 0 "").2, rfl,
    loopGo_shape_fail exec n rs 0 0 0 0 "" h⟩

/-- Witness for C4 (amended): at the concrete failing run, the history
gains exactly the initial user message. -/
theorem agent_loop_provider_failure_witness :
    ∃ app, (runAgentLoop exec0 "hi" [] 20 []).2 =
        [] ++ ⟨Role.user, Content.str "hi"⟩ :: app ∧ ToolTurns exec0 app :=
  agent_loop_provider_failure exec0 "hi" [] 20 [] rfl

/-- A policy decision (`PolicyDecision` in `policy-engine.ts`). -/
structure PolicyDecision where
  allowed : Bool
  reason : Option String := none
  matchedPatterns : Option (List String) := none
  deriving DecidableEq

/-- ASCII-only case folding: the canonicalisation a case-insensitive
JavaScript regular expression (without the `u` flag) applies never maps a
non-ASCII character to an ASCII one, so folding `A`–`Z` to `a`–`z` on
both sides is exact for ASCII pattern characters. -/
def foldCode (c : Char) : Nat :=
  if 65 ≤ c.toNat && c.toNat ≤ 90 then c.toNat + 32 else c.toNat

/-- Whitespace class `\s` of JavaScript regular expressions. -/
def isJsWs (c : Char) : Bool :=
  let n := c.toNat
  n == 9 || n == 10 || n == 11 || n == 12 || n == 13 || n == 32 ||
    n == 160 || n == 0x1680 || (0x2000 ≤ n && n ≤ 0x200a) || n == 0x2028 ||
    n == 0x2029 || n == 0x202f || n == 0x205f || n == 0x3000 || n == 0xfeff

/-- Word class `\w` of JavaScript regular expressions. -/
def isJsWord (c : Char) : Bool :=
  let n := c.toNat
  (65 ≤ n && n ≤ 90) || (97 ≤ n && n ≤ 122) || (48 ≤ n && n ≤ 57) || n == 95

/-- The `.` metacharacter: any character except a line terminator. -/
def isJsDot (c : Char) : Bool :=
  let n := c.toNat
  !(n == 10 || n == 13 || n == 0x2028 || n == 0x2029)

/-- A single-character matcher: a case-insensitive literal, `\s`, `\w`,
or `.`. -/
inductive CharCls
  | lit (c : Char)
  | ws
  | word
  | dot
  deriving DecidableEq

/-- Whether a character belongs to a character class. -/
def clsMatch : CharCls → Char → Bool
  | .lit c, x => foldCode c == foldCode x
  | .ws, x => isJsWs x
  | .word, x => isJsWord x
  | .dot, x => isJsDot x

/-- One element of a compiled regular expression: a class, a starred,
plus-ed or optional class, or the end-of-input anchor.  This covers
exactly the constructs appearing in the default dangerous-command
patterns. -/
inductive Re
  | cls (c : CharCls)
  | star (c : CharCls)
  | plus (c : CharCls)
  | opt (c : CharCls)
  | eos
  deriving DecidableEq

/-- Fuel-bounded backtracking matcher: does the whole regular expression
match some (not necessarily proper) prefix of the character list?  Every
recursive call strictly decreases `s.length + re.length`, so fuel
`s.length + re.length + 1` makes the fuel bound unreachable. -/
def matchSeqF : Nat → List Re → List Char → Bool
  | 0, _, _ => false
  | _ + 1, [], _ => true
  | f + 1, .eos :: rest, s =>
      (match s with | [] => true | _ :: _ => false) && matchSeqF f rest s
  | f + 1, .cls c :: rest, s =>
      match s with
      | [] => false
      | x :: xs => clsMatch c x && matchSeqF f rest xs
  | f + 1, .opt c :: rest, s =>
      matchSeqF f rest s ||
        (match s with
         | [] => false
         | x :: xs => clsMatch c x && matchSeqF f rest xs)
  | f + 1, .star c :: rest, s =>
      matchSeqF f rest s ||
        (match s with
         | [] => false
         | x :: xs => clsMatch c x && matchSeqF f (.star c :: rest) xs)
  | f + 1, .plus c :: rest, s =>
      match s with
      | [] => false
      | x :: xs => clsMatch c x && matchSeqF f (.star c :: rest) xs

/-- Match of a compiled expression against a prefix of a suffix. -/
def matchSeq (re : List Re) (s : List Char) : Bool :=
  matchSeqF (s.length + re.length + 1) re s

/-- `RegExp.test` semantics: the expression matches starting at some
position of the string. -/
def reTest (re : List Re) (s : String) : Bool :=
  (List.tails s.data).any (fun suf => matchSeq re suf)

/-- A compiled dangerous-command pattern: the regular-expression source
string (as reported in decisions) together with its compiled form. -/
structure CompiledPattern where
  source : String
  re : List Re
  deriving DecidableEq

/-- A sequence of case-insensitive literal characters. -/
def lits (s : String) : List Re :=
  s.data.map (fun c => Re.cls (CharCls.lit c))

/-- The default dangerous command patterns
(`DEFAULT_DANGEROUS_PATTERNS` in `policy-engine.ts`), hand-compiled. -/
def defaultDangerousPatterns : List CompiledPattern :=
  [⟨"DROP\\s+TABLE", lits "DROP" ++ [Re.plus .ws] ++ lits "TABLE"⟩,
   ⟨"DROP\\s+DATABASE", lits "DROP" ++ [Re.plus .ws] ++ lits "DATABASE"⟩,
   ⟨"TRUNCATE\\s+TABLE", lits "TRUNCATE" ++ [Re.plus .ws] ++ lits "TABLE"⟩,
   ⟨"DELETE\\s+FROM\\s+\\w+\\s*;?\\s*$",
     lits "DELETE" ++ [Re.plus .ws] ++ lits "FROM" ++
       [Re.plus .ws, Re.plus .word, Re.star .ws, Re.opt (.lit ';'),
        Re.star .ws, Re.eos]⟩,
   ⟨"rm\\s+-rf\\s+/", lits "rm" ++ [Re.plus .ws] ++ lits "-rf" ++
     [Re.plus .ws] ++ lits "/"⟩,
   ⟨"rm\\s+-rf\\s+\\*", lits "rm" ++ [Re.plus .ws] ++ lits "-rf" ++
     [Re.plus .ws] ++ lits "*"⟩,
   ⟨"sudo\\s+rm", lits "sudo" ++ [Re.plus .ws] ++ lits "rm"⟩,
   ⟨"chmod\\s+777", lits "chmod" ++ [Re.plus .ws] ++ lits "777"⟩,
   ⟨"mkfs\\.", lits "mkfs" ++ [Re.cls (.lit '.')]⟩,
   ⟨"dd\\s+if=", lits "dd" ++ [Re.plus .ws] ++ lits "if="⟩,
   ⟨":\\(\\)\\\x7b\\s*:\\|:&\\s*\\\x7d;:",
     lits ":()\x7b" ++ [Re.star .ws] ++ lits ":|:&" ++ [Re.star .ws] ++
       lits "\x7d;:"⟩,
   ⟨"curl.*pastebin", lits "curl" ++ [Re.star .dot] ++ lits "pastebin"⟩,
   ⟨"wget.*pastebin", lits "wget" ++ [Re.star .dot] ++ lits "pastebin"⟩,
   ⟨"curl.*ngrok", lits "curl" ++ [Re.star .dot] ++ lits "ngrok"⟩,
   ⟨"curl.*requestbin", lits "curl" ++ [Re.star .dot] ++ lits "requestbin"⟩]

/-- `PolicyEngine.checkCommand`: collect the sources of every compiled
pattern matching the command; deny when any matched, reporting up to two
sources in the reason and the full list in `matchedPatterns`. -/
def checkCommand (compiledPatterns : List CompiledPattern)
    (command : String) : PolicyDecision :=
  let matched :=
    (compiledPatterns.filter (fun p => reTest p.re command)).map
      (fun p => p.source)
  if 0 < matched.length then
    ⟨false,
     some ("Command contains dangerous patterns: " ++
       String.intercalate ", " (matched.take 2)),
     some matched⟩
  else
    ⟨true, none, none⟩

/-- C5.  The command check denies exactly when some compiled pattern
matches somewhere in the command; on denial the reason names at most the
first two matched pattern sources and `matchedPatterns` is the full list
of matched sources; in particular, under the default policy
`rm -rf /tmp/workspace/old_files` is denied with the `rm\s+-rf\s+/`
pattern in its match list. -/
theorem policy_checkCommand_spec :
    (∀ (compiledPatterns : List CompiledPattern) (command : String),
      ((checkCommand compiledPatterns command).allowed = false ↔
        ∃ p ∈ compiledPatterns, reTest p.re command = true)) ∧
    (∀ (compiledPatterns : List CompiledPattern) (command : String),
      (checkCommand compiledPatterns command).allowed = false →
        (checkCommand compiledPatterns command).matchedPatterns =
          some ((compiledPatterns.filter (fun p => reTest p.re command)).map
            (fun p => p.source)) ∧
        (checkCommand compiledPatterns command).reason =
          some ("Command contains dangerous patterns: " ++
            String.intercalate ", "
              (((compiledPatterns.filter (fun p => reTest p.re command)).map
                (fun p => p.source)).take 2))) ∧
    ((checkCommand defaultDangerousPatterns
        "rm -rf /tmp/workspace/old_files").allowed = false ∧
      (checkCommand defaultDangerousPatterns
        "rm -rf /tmp/workspace/old_files").matchedPatterns =
        some ["rm\\s+-rf\\s+/"]) := by
  refine ⟨?_, ?_, by decide, by decide⟩
  · intro compiledPatterns command
    constructor
    · intro h
      by_contra hno
      push_neg at hno
      have hfil : compiledPatterns.filter (fun p => reTest p.re command) = [] :=
        List.filter_eq_nil_iff.mpr (fun p hp => by simpa using hno p hp)
      simp [checkCommand, hfil] at h
    · rintro ⟨p, hp, hr⟩
      have hmem : p ∈ compiledPatterns.filter (fun p => reTest p.re command) :=
        List.mem_filter.mpr ⟨hp, hr⟩
      have hlen : 0 < (compiledPatterns.filter
          (fun p => reTest p.re command)).length :=
        List.length_pos.mpr (List.ne_nil_of_mem hmem)
      simp [checkCommand, hlen]
  · intro compiledPatterns command h
    by_cases hlen : 0 < (compiledPatterns.filter
        (fun p => reTest p.re command)).length
    · simp [checkCommand, hlen]
    · simp [checkCommand, hlen] at h

/-- Witness for C5: concrete denial of `rm -rf /` with its reported
reason and match list. -/
theorem policy_checkCommand_spec_witness :
    (checkCommand defaultDangerousPatterns "rm -rf /").matchedPatterns =
      some ["rm\\s+-rf\\s+/"] ∧
    (checkCommand defaultDangerousPatterns "rm -rf /").reason =
      some "Command contains dangerous patterns: rm\\s+-rf\\s+/" := by
  obtain ⟨h1, h2⟩ := policy_checkCommand_spec.2.1 defaultDangerousPatterns
    "rm -rf /" (by decide)
  exact ⟨h1.trans (by decide), h2.trans (by decide)⟩

/-- JavaScript `String.endsWith`. -/
def strEndsWith (s suf : String) : Bool :=
  decide (suf.data.length ≤ s.data.length) &&
    s.data.drop (s.data.length - suf.data.length) == suf.data

/-- Capture of the first match of `/@([^:]+)/`: scan for an `@` followed
by at least one non-colon character; the capture is the maximal run of
non-colon characters after it. -/
def findAtCapture : List Char → Option (List Char)
  | [] => none
  | c :: rest =>
      if c = '@' then
        if (rest.takeWhile (fun x => x ≠ ':')).isEmpty then findAtCapture rest
        else some (rest.takeWhile (fun x => x ≠ ':'))
      else findAtCapture rest

/-- The host extracted from an SSH target: the `/@([^:]+)/` capture, or
the whole target when the pattern does not match. -/
def sshHostOf (target : String) : String :=
  match findAtCapture target.data with
  | some cap => ⟨cap⟩
  | none => target

/-- `PolicyEngine.checkSSH`: with no (or an empty) allow-list every
target is allowed; otherwise the extracted host must equal an allowed
entry or end with `"." ++` an allowed entry. -/
def checkSSH (allowedSSHHosts : Option (List String))
    (target : String) : PolicyDecision :=
  match allowedSSHHosts with
  | none => ⟨true, none, none⟩
  | some allowed =>
      if allowed.isEmpty then ⟨true, none, none⟩
      else if allowed.any (fun a =>
          sshHostOf target == a || strEndsWith (sshHostOf target) ("." ++ a)) then
        ⟨true, none, none⟩
      else
        ⟨false,
         some ("SSH to " ++ sshHostOf target ++ " is not in the allowlist"),
         none⟩

/-- takeWhile of a list all of whose elements satisfy the predicate,
followed by a failing element, is that list. -/
theorem takeWhile_all_stop {p : Char → Bool} :
    ∀ (l : List Char) (x : Char) (t : List Char),
      (∀ a ∈ l, p a = true) → p x = false → (l ++ x :: t).takeWhile p = l := by
  intro l
  induction l with
  | nil => intro x t _ hx; simp [List.takeWhile, hx]
  | cons a l ih =>
    intro x t hall hx
    have ha : p a = true := hall a (by simp)
    simp only [List.cons_append, List.takeWhile, ha, List.append_eq]
    rw [ih x t (fun b hb => hall b (by simp [hb])) hx]

/-- On a well-formed `user@host:port` target (no `@` in the user part, no
`:` in the host, host non-empty), the `/@([^:]+)/` capture is exactly the
host. -/
theorem findAtCapture_target (user host port : List Char)
    (hu : ∀ c ∈ user, c ≠ '@') (hh : ∀ c ∈ host, c ≠ ':') (hne : host ≠ []) :
    findAtCapture (user ++ '@' :: (host ++ ':' :: port)) = some host := by
  induction user with
  | nil =>
    have htw : (host ++ ':' :: port).takeWhile (fun x => x ≠ ':') = host :=
      takeWhile_all_stop host ':' port (fun a ha => by simpa using hh a ha)
        (by simp)
    simp only [List.nil_append, findAtCapture, if_pos, htw]
    rw [if_neg]
    simpa [List.isEmpty_iff] using hne
  | cons c u ih =>
    have hc : c ≠ '@' := hu c (by simp)
    simp only [List.cons_append, findAtCapture, hc, if_neg, not_false_iff]
    exact ih (fun a ha => hu a (by simp [ha]))

/-- On a well-formed `user@host:port` target string, the extracted host
is exactly the host component. -/
theorem sshHostOf_target (user host port : String)
    (hu : ∀ c ∈ user.data, c ≠ '@') (hh : ∀ c ∈ host.data, c ≠ ':')
    (hne : host ≠ "") :
    sshHostOf (user ++ "@" ++ host ++ ":" ++ port) = host := by
  have hdata : (user ++ "@" ++ host ++ ":" ++ port).data =
      user.data ++ '@' :: (host.data ++ ':' :: port.data) := by
    show (((user.data ++ ['@']) ++ host.data) ++ [':']) ++ port.data =
      user.data ++ '@' :: (host.data ++ ':' :: port.data)
    simp
  have hne' : host.data ≠ [] := by
    intro h
    apply hne
    cases host with
    | mk d =>
      simp only at h
      subst h
      rfl
  unfold sshHostOf
  rw [hdata, findAtCapture_target user.data host.data port.data hu hh hne']

/-- C6.  For a `user@host:port` target, the SSH check extracts the host
and applies the domain matching rule against the allowed-SSH-hosts list:
the target is allowed iff the list is absent or empty, or the host equals
some allowed entry or ends with `"." ++` an allowed entry. -/
theorem policy_checkSSH_host_matching
    (allowedSSHHosts : Option (List String)) (user host port : String)
    (hu : ∀ c ∈ user.data, c ≠ '@') (hh : ∀ c ∈ host.data, c ≠ ':')
    (hne : host ≠ "") :
    (checkSSH allowedSSHHosts
        (user ++ "@" ++ host ++ ":" ++ port)).allowed = true ↔
      ∀ l, allowedSSHHosts = some l → l ≠ [] →
        ∃ a ∈ l, host = a ∨ strEndsWith host ("." ++ a) = true := by
  have hhost := sshHostOf_target user host port hu hh hne
  cases allowedSSHHosts with
  | none =>
    refine iff_of_true rfl ?_
    intro l hl
    cases hl
  | some l =>
    by_cases hl : l.isEmpty = true
    · have hnil : l = [] := by
        cases l with
        | nil => rfl
        | cons x xs => simp at hl
      subst hnil
      refine iff_of_true rfl ?_
      intro l' hl' hnil'
      cases hl'
      exact absurd rfl hnil'
    · have hli : l ≠ [] := by
        intro hn
        subst hn
        exact hl rfl
      have hempty : l.isEmpty = false := by
        cases l with
        | nil => exact absurd rfl hli
        | cons x xs => rfl
      have hred : checkSSH (some l) (user ++ "@" ++ host ++ ":" ++ port) =
          if l.any (fun a => host == a || strEndsWith host ("." ++ a)) then
            (⟨true, none, none⟩ : PolicyDecision)
          else
            ⟨false, some ("SSH to " ++ host ++ " is not in the allowlist"),
              none⟩ := by
        simp only [checkSSH, hempty, Bool.false_eq_true, if_false, hhost]
      rw [hred]
      by_cases hany : l.any (fun a =>
          host == a || strEndsWith host ("." ++ a)) = true
      · rw [if_pos hany]
        refine iff_of_true rfl ?_
        intro l' hl' _
        cases hl'
        obtain ⟨a, ha, hpa⟩ := List.any_eq_true.mp hany
        have hpa' : host = a ∨ strEndsWith host ("." ++ a) = true := by
          simpa using hpa
        exact ⟨a, ha, hpa'⟩
      · rw [if_neg hany]
        refine iff_of_false (by simp) ?_
        intro hall
        obtain ⟨a, ha, hpa⟩ := hall l rfl hli
        apply hany
        refine List.any_eq_true.mpr ⟨a, ha, ?_⟩
        rcases hpa with h1 | h1
        · simp [h1]
        · simp [h1]

/-- Witness for C6: with allow-list `["example.com"]`, the target
`root@api.example.com:22` is allowed (suffix match at a label boundary). -/
theorem policy_checkSSH_host_matching_witness :
    (checkSSH (some ["example.com"])
        ("root" ++ "@" ++ "api.example.com" ++ ":" ++ "22")).allowed = true := by
  refine (policy_checkSSH_host_matching (some ["example.com"])
    "root" "api.example.com" "22" (by decide) (by decide) (by decide)).mpr ?_
  intro l hl _
  cases hl
  exact ⟨"example.com", by simp, Or.inr (by decide)⟩

/-- Credential type (`CredentialType` in `vault.ts`). -/
inductive CredentialType
  | api_key
  | ssh_key
  | ssh_key_pub
  | token
  | database_url
  | generic
  deriving DecidableEq

/-- Rendering of a credential type as it appears in tool output. -/
def credTypeStr : CredentialType → String
  | .api_key => "api_key"
  | .ssh_key => "ssh_key"
  | .ssh_key_pub => "ssh_key_pub"
  | .token => "token"
  | .database_url => "database_url"
  | .generic => "generic"

/-- Credential metadata (`CredentialMeta` in `vault.ts`). -/
structure CredentialMeta where
  type : CredentialType
  description : Option String := none
  createdAt : String
  deriving DecidableEq

/-- Output of one authenticated encryption: ciphertext, IV and tag (their
base64 rendering is elided; the strings stand for the encoded bytes). -/
structure EncBlob where
  encrypted : String
  iv : String
  tag : String
  deriving DecidableEq

/-- A stored credential record (`StoredCredential` in `vault.ts`); JSON
(de)serialisation of the record is elided. -/
structure StoredCredential where
  encrypted : String
  iv : String
  tag : String
  meta : CredentialMeta
  deriving DecidableEq

/-- The AES-256-GCM primitive of `node:crypto`, abstracted: `enc` takes
the derived key, the fresh IV and the plaintext; `dec` returns `none`
when authenticated decryption fails (the TypeScript `decipher.final()`
throw, caught in `get`). -/
structure AEADScheme where
  enc : String → String → String → EncBlob
  dec : String → EncBlob → Option String

/-- One audit-trail append (`AuditTrail.log` arguments; timestamp and
entry id are elided). -/
structure AuditEvent where
  agentId : String
  actionType : String
  target : String
  decision : String
  reason : Option String := none
  deriving DecidableEq

/-- The storage backend, modelled as an association list with
put-then-get semantics (`put` overwrites, `get` returns the latest
value, absent keys yield `none`). -/
abbrev Store := List (String × StoredCredential)

/-- `StorageBackend.put`. -/
def storePut (st : Store) (key : String) (v : StoredCredential) : Store :=
  (key, v) :: st

/-- `StorageBackend.get`. -/
def storeGet (st : Store) (key : String) : Option StoredCredential :=
  (st.find? (fun p => p.1 == key)).map (fun p => p.2)

/-- ASCII uppercase letter. -/
def isUpperAZ (c : Char) : Bool := 65 ≤ c.toNat && c.toNat ≤ 90

/-- ASCII digit. -/
def isDigit09 (c : Char) : Bool := 48 ≤ c.toNat && c.toNat ≤ 57

/-- The credential name pattern `^[A-Z][A-Z0-9_]{1,63}$`. -/
def validateName (name : String) : Bool :=
  match name.data with
  | [] => false
  | c :: rest =>
      isUpperAZ c && decide (1 ≤ rest.length) && decide (rest.length ≤ 63) &&
        rest.all (fun x => isUpperAZ x || isDigit09 x || x == '_')

/-- A constructed vault: the agent identity and the derived key.  The
constructor derives the key from the key source with salt
`tamalebot-vault-{agentId}` (the PBKDF2-HMAC-SHA256 100000-iteration
derivation itself is the abstract `kdf`). -/
structure Vault where
  agentId : String
  encryptionKey : String
  deriving DecidableEq

/-- `CredentialVault` constructor. -/
def mkVault (kdf : String → String → String)
    (agentId vaultKeySource : String) : Vault :=
  ⟨agentId, kdf vaultKeySource ("tamalebot-vault-" ++ agentId)⟩

/-- `CredentialVault.set`: validate the name and the value length,
encrypt with a fresh IV, store under `vault/{NAME}.json`, audit
`vault_set`.  `iv` and `now` are the random IV and the current time,
passed as oracle inputs. -/
def vaultSet (A : AEADScheme) (v : Vault) (iv now name value : String)
    (mtype : CredentialType) (mdesc : Option String) (st : Store)
    (audit : List AuditEvent) : Except String (Store × List AuditEvent) :=
  if validateName name = false then
    .error ("Invalid credential name: " ++ name ++
      ". Must match [A-Z][A-Z0-9_]\x7b1,63\x7d")
  else if value == "" || decide (16384 < value.length) then
    .error "Credential value must be 1-16384 characters"
  else
    let blob := A.enc v.encryptionKey iv value
    .ok (storePut st ("vault/" ++ name ++ ".json")
        ⟨blob.encrypted, blob.iv, blob.tag, ⟨mtype, mdesc, now⟩⟩,
      audit ++ [⟨v.agentId, "vault_set", name, "allowed", none⟩])

/-- `CredentialVault.get`: invalid names yield `null` silently; a missing
record audits "not found"; a failed authenticated decryption audits
"decryption failed" and yields `null`; otherwise the plaintext and
metadata are returned. -/
def vaultGet (A : AEADScheme) (v : Vault) (name : String) (st : Store)
    (audit : List AuditEvent) :
    Option (String × CredentialMeta) × List AuditEvent :=
  if validateName name = false then (none, audit)
  else
    match storeGet st ("vault/" ++ name ++ ".json") with
    | none =>
        (none, audit ++ [⟨v.agentId, "vault_get", name, "allowed",
          some "not found"⟩])
    | some stored =>
        match A.dec v.encryptionKey ⟨stored.encrypted, stored.iv, stored.tag⟩ with
        | some value =>
            (some (value, stored.meta),
             audit ++ [⟨v.agentId, "vault_get", name, "allowed", none⟩])
        | none =>
            (none, audit ++ [⟨v.agentId, "vault_get", name, "blocked",
              some "decryption failed"⟩])

/-- A successful `set` stores the encrypted record under
`vault/{NAME}.json` and appends a `vault_set` audit event. -/
theorem vaultSet_ok (A : AEADScheme) (v : Vault) (iv now name value : String)
    (mtype : CredentialType) (mdesc : Option String) (st : Store)
    (audit : List AuditEvent) (hname : validateName name = true)
    (hv1 : value ≠ "") (hv2 : value.length ≤ 16384) :
    vaultSet A v iv now name value mtype mdesc st audit =
      .ok (storePut st ("vault/" ++ name ++ ".json")
          ⟨(A.enc v.encryptionKey iv value).encrypted,
           (A.enc v.encryptionKey iv value).iv,
           (A.enc v.encryptionKey iv value).tag, ⟨mtype, mdesc, now⟩⟩,
        audit ++ [⟨v.agentId, "vault_set", name, "allowed", none⟩]) := by
  unfold vaultSet
  rw [if_neg (by simp [hname]), if_neg ?_]
  simp only [Bool.or_eq_true, beq_iff_eq, decide_eq_true_eq]
  rintro (h | h)
  · exact hv1 h
  · omega

/-- `get` of a present record reduces to the authenticated decryption. -/
theorem vaultGet_decrypt (A : AEADScheme) (v' : Vault) (name : String)
    (st : Store) (audit : List AuditEvent) (stored : StoredCredential)
    (hname : validateName name = true)
    (hsg : storeGet st ("vault/" ++ name ++ ".json") = some stored) :
    vaultGet A v' name st audit =
      match A.dec v'.encryptionKey ⟨stored.encrypted, stored.iv, stored.tag⟩ with
      | some value =>
          (some (value, stored.meta),
           audit ++ [⟨v'.agentId, "vault_get", name, "allowed", none⟩])
      | none =>
          (none, audit ++ [⟨v'.agentId, "vault_get", name, "blocked",
            some "decryption failed"⟩]) := by
  unfold vaultGet
  rw [if_neg (by simp [hname]), hsg]

/-- `get` after `put` under the same key returns the stored record. -/
theorem storeGet_storePut (st : Store) (key : String) (v : StoredCredential) :
    storeGet (storePut st key v) key = some v := by
  simp [storeGet, storePut, List.find?_cons_of_pos]

/-- C7.  A credential stored through the library `set` and retrieved
through the same vault's `get` (same storage, same agent, same key
source) yields the original plaintext and its stored metadata type,
assuming the AEAD primitive decrypts its own encryptions. -/
theorem vault_set_get_roundtrip (A : AEADScheme)
    (kdf : String → String → String) (agentId src iv now name value : String)
    (mtype : CredentialType) (mdesc : Option String) (st : Store)
    (audit : List AuditEvent)
    (hA : ∀ k i p, A.dec k (A.enc k i p) = some p)
    (hname : validateName name = true)
    (hlen1 : 1 ≤ value.length) (hlen2 : value.length ≤ 16384) :
    ∃ st' audit',
      vaultSet A (mkVault kdf agentId src) iv now name value mtype mdesc
        st audit = .ok (st', audit') ∧
      (vaultGet A (mkVault kdf agentId src) name st' audit').1 =
        some (value, ⟨mtype, mdesc, now⟩) := by
  have hv1 : value ≠ "" := by
    intro h
    subst h
    exact absurd hlen1 (by decide)
  refine ⟨_, _, vaultSet_ok A (mkVault kdf agentId src) iv now name value
    mtype mdesc st audit hname hv1 hlen2, ?_⟩
  rw [vaultGet_decrypt A (mkVault kdf agentId src) name _ _ _ hname
    (storeGet_storePut st _ _)]
  have heta : (⟨(A.enc (mkVault kdf agentId src).encryptionKey iv value).encrypted,
      (A.enc (mkVault kdf agentId src).encryptionKey iv value).iv,
      (A.enc (mkVault kdf agentId src).encryptionKey iv value).tag⟩ : EncBlob) =
      A.enc (mkVault kdf agentId src).encryptionKey iv value := rfl
  rw [heta, hA]

/-- A toy AEAD scheme satisfying the correctness and authenticity
hypotheses, used to instantiate theorems at concrete inputs: the blob
carries the plaintext and remembers the key in the tag. -/
def testAEAD : AEADScheme :=
  ⟨fun key iv pt => ⟨pt, iv, key⟩,
   fun key blob => if blob.tag == key then some blob.encrypted else none⟩

/-- A toy key-derivation function, injective in the salt. -/
def testKdf : String → String → String :=
  fun src salt => src ++ "|" ++ salt

/-- Witness for C7: storing `sk-ant-abc123xyz` under `MY_KEY` and reading
it back returns the plaintext with type `api_key`. -/
theorem vault_set_get_roundtrip_witness :
    ∃ st' audit',
      vaultSet testAEAD (mkVault testKdf "agent-a" "src") "iv0" "t0" "MY_KEY"
        "sk-ant-abc123xyz" CredentialType.api_key none [] [] =
        .ok (st', audit') ∧
      (vaultGet testAEAD (mkVault testKdf "agent-a" "src") "MY_KEY"
        st' audit').1 =
        some ("sk-ant-abc123xyz", ⟨CredentialType.api_key, none, "t0"⟩) :=
  vault_set_get_roundtrip testAEAD testKdf "agent-a" "src" "iv0" "t0" "MY_KEY"
    "sk-ant-abc123xyz" CredentialType.api_key none [] []
    (fun k i p => by simp [testAEAD]) (by decide) (by decide) (by decide)

/-- String append is left-cancellative. -/
theorem strAppend_left_cancel {s t u : String} (h : s ++ t = s ++ u) : t = u := by
  cases s with
  | mk sd =>
    cases t with
    | mk td =>
      cases u with
      | mk ud =>
        have hd : sd ++ td = sd ++ ud := congrArg String.data h
        have : td = ud := List.append_cancel_left hd
        rw [this]

/-- C9.  The vault key is derived from the key source with salt
`tamalebot-vault-{agentId}`.  For distinct agent identifiers the salts
are distinct, hence (for a salt-collision-free derivation) the derived
keys are distinct, and a credential stored by agent A's vault fails
authenticated decryption in agent B's vault built from the same key
source: its `get` returns `null` and audits "decryption failed". -/
theorem vault_cross_agent_isolation (A : AEADScheme)
    (kdf : String → String → String) (src a b iv now name value : String)
    (mtype : CredentialType) (mdesc : Option String) (st : Store)
    (audit : List AuditEvent)
    (hAuth : ∀ k k' i p, k ≠ k' → A.dec k' (A.enc k i p) = none)
    (hKdf : ∀ s₁ s₂, kdf src s₁ = kdf src s₂ → s₁ = s₂)
    (hab : a ≠ b) (hname : validateName name = true)
    (hv1 : value ≠ "") (hv2 : value.length ≤ 16384) :
    ("tamalebot-vault-" ++ a) ≠ ("tamalebot-vault-" ++ b) ∧
    (mkVault kdf a src).encryptionKey ≠ (mkVault kdf b src).encryptionKey ∧
    ∀ st' audit',
      vaultSet A (mkVault kdf a src) iv now name value mtype mdesc st audit =
        .ok (st', audit') →
      (vaultGet A (mkVault kdf b src) name st' audit').1 = none ∧
      (vaultGet A (mkVault kdf b src) name st' audit').2 =
        audit' ++ [⟨b, "vault_get", name, "blocked",
          some "decryption failed"⟩] := by
  have hsalt : ("tamalebot-vault-" ++ a) ≠ ("tamalebot-vault-" ++ b) :=
    fun h => hab (strAppend_left_cancel h)
  have hkey : (mkVault kdf a src).encryptionKey ≠
      (mkVault kdf b src).encryptionKey :=
    fun h => hsalt (hKdf _ _ h)
  refine ⟨hsalt, hkey, ?_⟩
  intro st' audit' hset
  rw [vaultSet_ok A (mkVault kdf a src) iv now name value mtype mdesc st audit
    hname hv1 hv2] at hset
  injection hset with hpair
  obtain ⟨h1, h2⟩ := Prod.mk.inj hpair
  subst h1
  subst h2
  rw [vaultGet_decrypt A (mkVault kdf b src) name _ _ _ hname
    (storeGet_storePut st _ _)]
  have heta : (⟨(A.enc (mkVault kdf a src).encryptionKey iv value).encrypted,
      (A.enc (mkVault kdf a src).encryptionKey iv value).iv,
      (A.enc (mkVault kdf a src).encryptionKey iv value).tag⟩ : EncBlob) =
      A.enc (mkVault kdf a src).encryptionKey iv value := rfl
  rw [heta, hAuth _ _ _ _ hkey]
  exact ⟨rfl, rfl⟩

/-- Witness for C9: agents `agent-a` and `agent-b` with the same key
source derive distinct salts and keys, and agent B cannot read agent A's
stored credential. -/
theorem vault_cross_agent_isolation_witness :
    ("tamalebot-vault-" ++ "agent-a") ≠ ("tamalebot-vault-" ++ "agent-b") ∧
    (mkVault testKdf "agent-a" "src").encryptionKey ≠
      (mkVault testKdf "agent-b" "src").encryptionKey ∧
    ∀ st' audit',
      vaultSet testAEAD (mkVault testKdf "agent-a" "src") "iv0" "t0" "MY_KEY"
        "sk-ant-abc123xyz" CredentialType.api_key none [] [] =
        .ok (st', audit') →
      (vaultGet testAEAD (mkVault testKdf "agent-b" "src") "MY_KEY"
        st' audit').1 = none ∧
      (vaultGet testAEAD (mkVault testKdf "agent-b" "src") "MY_KEY"
        st' audit').2 =
        audit' ++ [⟨"agent-b", "vault_get", "MY_KEY", "blocked",
          some "decryption failed"⟩] :=
  vault_cross_agent_isolation testAEAD testKdf "src" "agent-a" "agent-b"
    "iv0" "t0" "MY_KEY" "sk-ant-abc123xyz" CredentialType.api_key none [] []
    (fun k k' i p h => by simp [testAEAD]; intro hkk; exact absurd hkk h)
    (fun s₁ s₂ h => strAppend_left_cancel h)
    (by decide) (by decide) (by decide) (by decide)

/-- The masking applied by the vault tool's `get` action: values longer
than eight characters show their first four characters followed by
`min(length - 4, 20)` asterisks; shorter values show `"****"`. -/
def maskValue (value : String) : String :=
  if 8 < value.length then
    String.mk (value.data.take 4) ++
      String.mk (List.replicate (min (value.length - 4) 20) '*')
  else "****"

/-- The `get` branch of `executeVault` in `tools.ts`: look the credential
up and render its masked value with its metadata. -/
def executeVaultGetTool (A : AEADScheme) (v : Vault) (name : String)
    (st : Store) : ToolResult :=
  if name == "" then ⟨"Missing 'name' parameter", true⟩
  else
    match (vaultGet A v name st []).1 with
    | none => ⟨"Credential '" ++ name ++ "' not found", true⟩
    | some (value, meta) =>
        ⟨"Credential '" ++ name ++ "' (type: " ++ credTypeStr meta.type ++
          "): " ++ maskValue value ++ "\nCreated: " ++ meta.createdAt ++
          (match meta.description with
           | some d => "\nDescription: " ++ d
           | none => ""), false⟩

/-- C8 counterexample.  For the five-character stored value `abcde` the
tool-surface mask is `"****"`, which is not the first four characters of
the value followed by any number (up to twenty) of mask characters. -/
theorem vault_tool_mask_short_value_counterexample :
    maskValue "abcde" = "****" ∧
    ((List.range 21).all fun n =>
      maskValue "abcde" != "abcd" ++ String.mk (List.replicate n '*')) =
      true := by
  constructor
  · rfl
  · decide

/-- C8 (amended).  A tool-surface vault `get` masks the value: for values
longer than eight characters it returns the first four characters
followed by between five and twenty mask characters; for values of at
most eight characters it returns exactly `"****"` and none of the
value's characters; for the sixteen-character value `sk-ant-abc123xyz`
the visible prefix is exactly `sk-a` followed by twelve mask characters;
and the tool output embeds the masked rendering, never the raw
plaintext field. -/
theorem vault_tool_get_masking :
    (∀ value : String, 8 < value.length →
      maskValue value = String.mk (value.data.take 4) ++
        String.mk (List.replicate (min (value.length - 4) 20) '*') ∧
      5 ≤ min (value.length - 4) 20 ∧ min (value.length - 4) 20 ≤ 20) ∧
    (∀ value : String, value.length ≤ 8 → maskValue value = "****") ∧
    maskValue "sk-ant-abc123xyz" = "sk-a************" ∧
    (∀ (A : AEADScheme) (v : Vault) (name : String) (st : Store)
      (value : String) (meta : CredentialMeta), ¬name = "" →
      (vaultGet A v name st []).1 = some (value, meta) →
      executeVaultGetTool A v name st =
        ⟨"Credential '" ++ name ++ "' (type: " ++ credTypeStr meta.type ++
          "): " ++ maskValue value ++ "\nCreated: " ++ meta.createdAt ++
          (match meta.description with
           | some d => "\nDescription: " ++ d
           | none => ""), false⟩) := by
  refine ⟨?_, ?_, by decide, ?_⟩
  · intro value hlen
    refine ⟨?_, by omega, by omega⟩
    rw [maskValue, if_pos hlen]
  · intro value hlen
    rw [maskValue, if_neg (by omega)]
  · intro A v name st value meta hname hget
    unfold executeVaultGetTool
    rw [if_neg (by simpa using hname), hget]

/-- Witness for C8: the masking cases applied at the concrete
sixteen-character value. -/
theorem vault_tool_get_masking_witness :
    maskValue "sk-ant-abc123xyz" = String.mk ("sk-ant-abc123xyz".data.take 4) ++
      String.mk (List.replicate (min ("sk-ant-abc123xyz".length - 4) 20) '*') ∧
    5 ≤ min ("sk-ant-abc123xyz".length - 4) 20 ∧
    min ("sk-ant-abc123xyz".length - 4) 20 ≤ 20 :=
  vault_tool_get_masking.1 "sk-ant-abc123xyz" (by decide)

/-- Observable effects of one tool executor run: its result, the audit
entries it appended and the policy evaluations it performed. -/
structure ExecOutcome where
  result : ToolResult
  auditAppended : List AuditEvent
  policyEvals : List (String × String)
  deriving DecidableEq

/-- The eight concrete tool executors of `tools.ts`, abstracted (they
perform subprocess, filesystem and network I/O). -/
structure ToolExecutors where
  shell : ToolInput → ExecOutcome
  fileRead : ToolInput → ExecOutcome
  fileWrite : ToolInput → ExecOutcome
  webBrowse : ToolInput → ExecOutcome
  vaultTool : ToolInput → ExecOutcome
  sshExec : ToolInput → ExecOutcome
  gitTool : ToolInput → ExecOutcome
  scheduleTool : ToolInput → ExecOutcome

/-- `executeTool` of `tools.ts`: dispatch on the tool name; unknown names
produce an error result directly, with no policy evaluation and no audit
append. -/
def executeTool (ex : ToolExecutors) (toolName : String)
    (input : ToolInput) : ExecOutcome :=
  if toolName == "shell" then ex.shell input
  else if toolName == "file_read" then ex.fileRead input
  else if toolName == "file_write" then ex.fileWrite input
  else if toolName == "web_browse" then ex.webBrowse input
  else if toolName == "vault" then ex.vaultTool input
  else if toolName == "ssh_exec" then ex.sshExec input
  else if toolName == "git" then ex.gitTool input
  else if toolName == "schedule" then ex.scheduleTool input
  else ⟨⟨"Unknown tool: " ++ toolName, true⟩, [], []⟩

/-- JavaScript `String.startsWith`. -/
def strStartsWith (s p : String) : Bool :=
  s.data.take p.data.length == p.data

/-- C10.  For every tool name outside the fixed catalog (and any input
and any executors), `executeTool` returns an error result whose output
starts with `"Unknown tool:"`, performs no policy evaluation and
appends no audit entry. -/
theorem executeTool_unknown (ex : ToolExecutors) (toolName : String)
    (input : ToolInput)
    (h : toolName ∉ ["shell", "file_read", "file_write", "web_browse",
      "vault", "ssh_exec", "git", "schedule"]) :
    executeTool ex toolName input =
      ⟨⟨"Unknown tool: " ++ toolName, true⟩, [], []⟩ ∧
    strStartsWith (executeTool ex toolName input).result.output
      "Unknown tool: " = true ∧
    (executeTool ex toolName input).result.isError = true ∧
    (executeTool ex toolName input).auditAppended = [] ∧
    (executeTool ex toolName input).policyEvals = [] := by
  simp only [List.mem_cons, List.not_mem_nil, or_false, not_or] at h
  obtain ⟨h1, h2, h3, h4, h5, h6, h7, h8⟩ := h
  have hred : executeTool ex toolName input =
      ⟨⟨"Unknown tool: " ++ toolName, true⟩, [], []⟩ := by
    unfold executeTool
    rw [if_neg (by simp [h1]), if_neg (by simp [h2]), if_neg (by simp [h3]),
      if_neg (by simp [h4]), if_neg (by simp [h5]), if_neg (by simp [h6]),
      if_neg (by simp [h7]), if_neg (by simp [h8])]
  refine ⟨hred, ?_, ?_, ?_, ?_⟩ <;> rw [hred]
  have htake : ("Unknown tool: " ++ toolName).data.take
      ("Unknown tool: ".data.length) = "Unknown tool: ".data := by
    show ("Unknown tool: ".data ++ toolName.data).take
      ("Unknown tool: ".data.length) = "Unknown tool: ".data
    exact List.take_left _ _
  simp [strStartsWith, htake]

/-- Executors returning an empty outcome, used to instantiate the
dispatch theorem at a concrete input. -/
def noopExecutors : ToolExecutors :=
  ⟨fun _ => ⟨⟨"", false⟩, [], []⟩, fun _ => ⟨⟨"", false⟩, [], []⟩,
   fun _ => ⟨⟨"", false⟩, [], []⟩, fun _ => ⟨⟨"", false⟩, [], []⟩,
   fun _ => ⟨⟨"", false⟩, [], []⟩, fun _ => ⟨⟨"", false⟩, [], []⟩,
   fun _ => ⟨⟨"", false⟩, [], []⟩, fun _ => ⟨⟨"", false⟩, [], []⟩⟩

/-- Witness for C10: the unknown tool name `frobnicate`. -/
theorem executeTool_unknown_witness :
    executeTool noopExecutors "frobnicate" [] =
      ⟨⟨"Unknown tool: " ++ "frobnicate", true⟩, [], []⟩ ∧
    strStartsWith (executeTool noopExecutors "frobnicate" []).result.output
      "Unknown tool: " = true ∧
    (executeTool noopExecutors "frobnicate" []).result.isError = true ∧
    (executeTool noopExecutors "frobnicate" []).auditAppended = [] ∧
    (executeTool noopExecutors "frobnicate" []).policyEvals = [] :=
  executeTool_unknown noopExecutors "frobnicate" [] (by decide)

end TamaleBot
